import Mathlib

/-!
Verification of the FIFO capital-gains engine of the t212-cgt-calculator
repository (src/t212.py).

The embedding models the windowed path of calculate_gain_for_ticker:
  - Python datetime values become integers (only their order matters);
  - Python floats become rationals;
  - the in-place mutation of num_shares is modelled by threading the event
    list through the computation and updating it with List.set at the same
    indices the Python reference lists alias;
  - the IndexError raised when the relevant purchase queue is exhausted is
    modelled by the Option none result.

A pure specification layer (Lot, Step, carrySpec, fifoSaleT, fifoTrace)
captures the FIFO matching as a trace of matches; the main bridge theorem
relates the imperative engine to that trace.
-/

set_option maxRecDepth 8000

namespace T212

/-- EventType from src/t212.py: BUY or SELL. -/
inductive EventType where
  | BUY : EventType
  | SELL : EventType
deriving DecidableEq, Repr

/-- Event from src/t212.py: one transaction record.  Dates are modelled as
integers (the code only compares them), monetary amounts as rationals. -/
structure Event where
  evType : EventType
  date : ℤ
  num_shares : ℚ
  value : ℚ
  cost_of_transaction : ℚ
deriving DecidableEq, Repr

instance : Inhabited Event := ⟨⟨EventType.BUY, 0, 0, 0, 0⟩⟩

/-- Read the event stored at index i (out-of-range reads return the default
event; the engine only ever reads indices produced by its own filters). -/
def evAt (events : List Event) (i : ℕ) : Event :=
  events.getD i default

/-- Overwrite the num_shares field of the event at index i, modelling the
Python in-place mutation of a shared Event object. -/
def setShares (events : List Event) (i : ℕ) (q : ℚ) : List Event :=
  events.set i { evAt events i with num_shares := q }

/-- The filter picking the in-window disposals: evType SELL and
start_date less-or-equal date less-or-equal end_date (both inclusive). -/
def isWindowSell (s e : ℤ) (ev : Event) : Bool :=
  ev.evType == EventType.SELL && decide (s ≤ ev.date) && decide (ev.date ≤ e)

/-- The filter picking the purchases available to the window: evType BUY and
date less-or-equal end_date. -/
def isRelevantBuy (e : ℤ) (ev : Event) : Bool :=
  ev.evType == EventType.BUY && decide (ev.date ≤ e)

/-- The filter picking prior disposals: evType SELL and date strictly before
start_date. -/
def isPriorSell (s : ℤ) (ev : Event) : Bool :=
  ev.evType == EventType.SELL && decide (ev.date < s)

/-- Total quantity sold before the window, read off the unmutated event list
exactly as the Python list comprehension does. -/
def priorSum (events : List Event) (s : ℤ) : ℚ :=
  ((events.filter (isPriorSell s)).map Event.num_shares).sum

/-- The carry-forward walk of calculate_gain_for_ticker (the for-loop over
all_buys): consume prior sold quantity from the oldest purchase lots; a lot
fully covered is skipped (start_index advances), the first lot that is not
fully covered is reduced in place and the walk stops.  Returns the updated
event list and the number of fully consumed lots (start_index). -/
def carryLoop (events : List Event) : List ℕ → ℚ → List Event × ℕ
  | [], _ => (events, 0)
  | i :: rest, prior =>
    if (evAt events i).num_shares ≤ prior then
      let p := carryLoop events rest (prior - (evAt events i).num_shares)
      (p.1, p.2 + 1)
    else
      (setShares events i ((evAt events i).num_shares - prior), 0)

/-- The two-pointer matching loop of calculate_gain_for_ticker.  sells and
buys are the index lists of the in-window disposals and the relevant
purchase lots; si and bi are sale_index and buy_index.  The fuel argument
is a structural-recursion bound; the caller passes more fuel than the loop
can consume, so fuel exhaustion is unreachable.  Accessing buys past its
end models the Python IndexError and yields none. -/
def matchLoopF : ℕ → List Event → List ℕ → List ℕ → ℕ → ℕ → ℚ → Option (ℚ × List Event)
  | 0, _, _, _, _, _, _ => none
  | fuel + 1, events, sells, buys, si, bi, cgt =>
    if si < sells.length then
      if bi < buys.length then
        let sale := evAt events (sells.getD si 0)
        let buy := evAt events (buys.getD bi 0)
        let profit_per_share := sale.value - buy.value
        if sale.num_shares < buy.num_shares then
          matchLoopF fuel
            (setShares events (buys.getD bi 0) (buy.num_shares - sale.num_shares))
            sells buys (si + 1) bi
            (cgt + (profit_per_share * sale.num_shares - sale.cost_of_transaction))
        else if buy.num_shares < sale.num_shares then
          matchLoopF fuel
            (setShares events (sells.getD si 0) (sale.num_shares - buy.num_shares))
            sells buys si (bi + 1)
            (cgt + (profit_per_share * buy.num_shares - buy.cost_of_transaction))
        else
          matchLoopF fuel
            (setShares events (sells.getD si 0) (sale.num_shares - buy.num_shares))
            sells buys (si + 1) (bi + 1)
            (cgt + (profit_per_share * sale.num_shares - sale.cost_of_transaction))
      else none
    else some (cgt, events)

/-- Positions of the in-window disposals (the all_sells reference list). -/
def sellIdxs (events : List Event) (s e : ℤ) : List ℕ :=
  (List.range events.length).filter (fun i => isWindowSell s e (evAt events i))

/-- Positions of the purchases dated at or before the window end (the
all_buys reference list). -/
def buyIdxs (events : List Event) (e : ℤ) : List ℕ :=
  (List.range events.length).filter (fun i => isRelevantBuy e (evAt events i))

/-- calculate_gain_for_ticker from src/t212.py, windowed path (start_date and
end_date provided).  Returns the accumulated gain together with the mutated
event list, or none when the purchase queue is exhausted (IndexError). -/
def calculate_gain_for_ticker (events : List Event) (start_date end_date : ℤ) :
    Option (ℚ × List Event) :=
  let sellIdx := sellIdxs events start_date end_date
  let buyIdx := buyIdxs events end_date
  let p := carryLoop events buyIdx (priorSum events start_date)
  let relevant := buyIdx.drop p.2
  matchLoopF (sellIdx.length + relevant.length + 1) p.1 sellIdx relevant 0 0 0

/-! ## Pure specification layer -/

/-- A lot as the matching algorithm sees it: remaining quantity, unit value
and transaction cost. -/
structure Lot where
  qty : ℚ
  val : ℚ
  cost : ℚ
deriving DecidableEq, Repr

/-- Project an event onto its lot data. -/
def toLot (ev : Event) : Lot :=
  ⟨ev.num_shares, ev.value, ev.cost_of_transaction⟩

/-- The lots read at a list of indices. -/
def lotsAt (events : List Event) (idxs : List ℕ) : List Lot :=
  idxs.map (fun i => toLot (evAt events i))

/-- The in-window disposal lots, in input order. -/
def sellLots (events : List Event) (s e : ℤ) : List Lot :=
  (events.filter (isWindowSell s e)).map toLot

/-- The purchase lots dated at or before the window end, in input order. -/
def buyLots (events : List Event) (e : ℤ) : List Lot :=
  (events.filter (isRelevantBuy e)).map toLot

/-- Pure carry-forward: drop the purchase lots fully covered by the prior
sold quantity and reduce the first lot that is not fully covered. -/
def carrySpec (prior : ℚ) : List Lot → List Lot
  | [] => []
  | b :: bs =>
    if b.qty ≤ prior then carrySpec (prior - b.qty) bs
    else ⟨b.qty - prior, b.val, b.cost⟩ :: bs

/-- Which side of a match step is exhausted. -/
inductive StepKind where
  | saleDone : StepKind
  | buyDone : StepKind
  | bothDone : StepKind
deriving DecidableEq, Repr

/-- One FIFO match: the matched quantity, the unit values and transaction
costs of the two sides, and which side the step exhausts. -/
structure Step where
  qty : ℚ
  sVal : ℚ
  bVal : ℚ
  sCost : ℚ
  bCost : ℚ
  kind : StepKind
deriving DecidableEq, Repr

/-- The transaction cost the engine charges at a step: the disposal's cost
when the disposal is exhausted (strictly-smaller or equal branch), the lot's
cost when the lot alone is exhausted. -/
def chargeOf (st : Step) : ℚ :=
  match st.kind with
  | StepKind.saleDone => st.sCost
  | StepKind.buyDone => st.bCost
  | StepKind.bothDone => st.sCost

/-- Gain contributed by one match step. -/
def stepGain (st : Step) : ℚ :=
  (st.sVal - st.bVal) * st.qty - chargeOf st

/-- Gain accumulated over a trace of match steps. -/
def traceGain (tr : List Step) : ℚ :=
  (tr.map stepGain).sum

/-- Match one disposal against the purchase queue, producing the match steps
it generates and the remaining queue; none when the queue runs out. -/
def fifoSaleT (sale : Lot) : List Lot → Option (List Step × List Lot)
  | [] => none
  | b :: bs =>
    if sale.qty < b.qty then
      some ([⟨sale.qty, sale.val, b.val, sale.cost, b.cost, StepKind.saleDone⟩],
        ⟨b.qty - sale.qty, b.val, b.cost⟩ :: bs)
    else if b.qty < sale.qty then
      match fifoSaleT ⟨sale.qty - b.qty, sale.val, sale.cost⟩ bs with
      | none => none
      | some (ms, bs') =>
        some (⟨b.qty, sale.val, b.val, sale.cost, b.cost, StepKind.buyDone⟩ :: ms, bs')
    else
      some ([⟨sale.qty, sale.val, b.val, sale.cost, b.cost, StepKind.bothDone⟩], bs)

/-- The full FIFO match trace of a disposal list against a purchase queue. -/
def fifoTrace : List Lot → List Lot → Option (List Step)
  | [], _ => some []
  | s :: ss, bs =>
    match fifoSaleT s bs with
    | none => none
    | some (ms, bs') => (fifoTrace ss bs').map (fun tr => ms ++ tr)

instance : Inhabited Lot := ⟨⟨0, 0, 0⟩⟩

/-- Pair each purchase lot with zero accumulated consumption: the initial
state of the consumption ledger. -/
def annotate (bs : List Lot) : List (Lot × ℚ) :=
  bs.map (fun b => (b, 0))

/-- Consumption-instrumented single-disposal matching.  It performs exactly
the matching of fifoSaleT on the lot components (see fifoSaleL_erase) and
additionally credits every matched quantity to the ledger entry of the lot
it is drawn from: a lot the disposal exhausts is emitted (in queue order)
with remaining quantity zero and its whole remaining quantity credited; the
surviving head lot is reduced and credited with the partial draw.  Returns
(match steps, emitted entries, remaining annotated queue). -/
def fifoSaleL (sale : Lot) :
    List (Lot × ℚ) → Option (List Step × List (Lot × ℚ) × List (Lot × ℚ))
  | [] => none
  | (b, c) :: bs =>
    if sale.qty < b.qty then
      some ([⟨sale.qty, sale.val, b.val, sale.cost, b.cost, StepKind.saleDone⟩], [],
        (⟨b.qty - sale.qty, b.val, b.cost⟩, c + sale.qty) :: bs)
    else if b.qty < sale.qty then
      match fifoSaleL ⟨sale.qty - b.qty, sale.val, sale.cost⟩ bs with
      | none => none
      | some (ms, fin, rest) =>
        some (⟨b.qty, sale.val, b.val, sale.cost, b.cost, StepKind.buyDone⟩ :: ms,
          (⟨0, b.val, b.cost⟩, c + b.qty) :: fin, rest)
    else
      some ([⟨sale.qty, sale.val, b.val, sale.cost, b.cost, StepKind.bothDone⟩],
        [(⟨0, b.val, b.cost⟩, c + b.qty)], bs)

/-- Consumption-instrumented full matching: the match steps of fifoTrace
together with the final consumption ledger, position-aligned with the
initial purchase queue (emitted entries accumulate as a prefix in queue
order). -/
def fifoLedger : List Lot → List (Lot × ℚ) → Option (List Step × List (Lot × ℚ))
  | [], bs => some ([], bs)
  | s :: ss, bs =>
    match fifoSaleL s bs with
    | none => none
    | some (ms, fin, rest) =>
      (fifoLedger ss rest).map (fun p => (ms ++ p.1, fin ++ p.2))

/-- Two event lists of the same length agreeing on every field except
possibly num_shares. -/
def sameFrame (l₁ l₂ : List Event) : Prop :=
  l₁.length = l₂.length ∧
    ∀ i : ℕ, (evAt l₂ i).evType = (evAt l₁ i).evType ∧ (evAt l₂ i).date = (evAt l₁ i).date ∧
      (evAt l₂ i).value = (evAt l₁ i).value ∧
      (evAt l₂ i).cost_of_transaction = (evAt l₁ i).cost_of_transaction

/-! ## Concrete histories used by the claim instances.
Dates are encoded as YYYYMMDD integers; the window is calendar year 2025. -/

/-- Start of the 2025 reporting window. -/
def y2025start : ℤ := 20250101

/-- End of the 2025 reporting window. -/
def y2025end : ℤ := 20251231

/-- Scenario A of the spec: buy 100 at 10.0, sell 100 at 12.0, same year. -/
def scenarioA : List Event :=
  [⟨EventType.BUY, 20250131, 100, 10, 0⟩,
   ⟨EventType.SELL, 20250615, 100, 12, 0⟩]

/-- Scenario A after one engine pass: the disposal quantity is zeroed by the
equal-quantities branch; the purchase lot keeps its pre-match quantity. -/
def scenarioA_sold : List Event :=
  [⟨EventType.BUY, 20250131, 100, 10, 0⟩,
   ⟨EventType.SELL, 20250615, 0, 12, 0⟩]

/-- Scenario E of the spec: buy 100 at 10 (2024), sell 50 at 13 (2024),
buy 100 at 9 (2025), sell 150 at 11 (2025). -/
def scenarioE : List Event :=
  [⟨EventType.BUY, 20240101, 100, 10, 0⟩,
   ⟨EventType.SELL, 20240601, 50, 13, 0⟩,
   ⟨EventType.BUY, 20250301, 100, 9, 0⟩,
   ⟨EventType.SELL, 20250601, 150, 11, 0⟩]

/-- A purchase lot with transaction cost 5 matched exactly by a cost-free
disposal: exercises the equal-quantities branch with a lot cost at stake. -/
def costLotHistory : List Event :=
  [⟨EventType.BUY, 20250131, 100, 10, 5⟩,
   ⟨EventType.SELL, 20250615, 100, 12, 0⟩]

/-- costLotHistory after one engine pass. -/
def costLotFinal : List Event :=
  [⟨EventType.BUY, 20250131, 100, 10, 5⟩,
   ⟨EventType.SELL, 20250615, 0, 12, 0⟩]

/-- Two purchases listed in non-chronological order, then a disposal: input
order determines which lot is matched first. -/
def shuffledHistory : List Event :=
  [⟨EventType.BUY, 20250105, 1, 10, 0⟩,
   ⟨EventType.BUY, 20250102, 1, 20, 0⟩,
   ⟨EventType.SELL, 20250110, 1, 30, 0⟩]

/-- shuffledHistory in chronological order. -/
def sortedHistory : List Event :=
  [⟨EventType.BUY, 20250102, 1, 20, 0⟩,
   ⟨EventType.BUY, 20250105, 1, 10, 0⟩,
   ⟨EventType.SELL, 20250110, 1, 30, 0⟩]

/-- A history with a purchase only: the engine returns it unchanged. -/
def buyOnlyHistory : List Event :=
  [⟨EventType.BUY, 20250115, 100, 10, 0⟩]

/-- A disposal with no purchase history: triggers the out-of-lots error. -/
def onlySellHistory : List Event :=
  [⟨EventType.SELL, 20250601, 5, 10, 0⟩]

/-- A lot of 100 partially consumed by a disposal of 40. -/
def smallSaleHistory : List Event :=
  [⟨EventType.BUY, 20250131, 100, 10, 0⟩,
   ⟨EventType.SELL, 20250615, 40, 12, 0⟩]

/-- smallSaleHistory after one engine pass: the lot is drawn down to 60, the
fully matched disposal keeps its pre-match quantity 40. -/
def smallSaleFinal : List Event :=
  [⟨EventType.BUY, 20250131, 60, 10, 0⟩,
   ⟨EventType.SELL, 20250615, 40, 12, 0⟩]

/-- scenarioA with a disposal dated after the window end appended. -/
def lateSell : Event := ⟨EventType.SELL, 20260101, 10, 9, 0⟩

/-! ## Basic index lemmas -/

theorem length_setShares (events : List Event) (i : ℕ) (q : ℚ) :
    (setShares events i q).length = events.length := by
  simp [setShares]

theorem evAt_set_self : ∀ (l : List Event) (i : ℕ) (a : Event), i < l.length →
    evAt (l.set i a) i = a
  | _ :: _, 0, _, _ => rfl
  | _ :: l, i + 1, a, h => evAt_set_self l i a (Nat.lt_of_succ_lt_succ h)

theorem evAt_set_ne : ∀ (l : List Event) (i j : ℕ) (a : Event), i ≠ j →
    evAt (l.set i a) j = evAt l j
  | [], _, _, _, _ => rfl
  | _ :: _, 0, 0, _, h => absurd rfl h
  | _ :: _, 0, _ + 1, _, _ => rfl
  | _ :: _, _ + 1, 0, _, _ => rfl
  | _ :: l, i + 1, j + 1, a, h =>
    evAt_set_ne l i j a (fun hh => h (by rw [hh]))

theorem evAt_setShares_self (events : List Event) (i : ℕ) (q : ℚ) (h : i < events.length) :
    evAt (setShares events i q) i = { evAt events i with num_shares := q } :=
  evAt_set_self _ _ _ h

theorem evAt_setShares_ne (events : List Event) (i j : ℕ) (q : ℚ) (h : i ≠ j) :
    evAt (setShares events i q) j = evAt events j :=
  evAt_set_ne _ _ _ _ h

theorem lotsAt_nil (events : List Event) : lotsAt events [] = [] := rfl

theorem lotsAt_cons (events : List Event) (i : ℕ) (idxs : List ℕ) :
    lotsAt events (i :: idxs) = toLot (evAt events i) :: lotsAt events idxs := rfl

theorem lotsAt_congr (events events' : List Event) (idxs : List ℕ)
    (h : ∀ i ∈ idxs, evAt events' i = evAt events i) :
    lotsAt events' idxs = lotsAt events idxs := by
  simp only [lotsAt]
  exact List.map_congr_left (fun i hi => by rw [h i hi])

theorem lotsAt_setShares_not_mem (events : List Event) (idxs : List ℕ) (i : ℕ) (q : ℚ)
    (h : i ∉ idxs) :
    lotsAt (setShares events i q) idxs = lotsAt events idxs :=
  lotsAt_congr _ _ _ (fun _j hj => evAt_setShares_ne _ _ _ _ (fun he => h (he ▸ hj)))

/-- Reading the events selected by an index filter over the range of
positions is the same as filtering the event list directly: this is how the
index-based engine state relates to the Python reference lists. -/
theorem filter_range_map {β : Type} (f : Event → β) (p : Event → Bool) :
    ∀ l : List Event,
      ((List.range l.length).filter (fun i => p (evAt l i))).map (fun i => f (evAt l i))
        = (l.filter p).map f
  | [] => rfl
  | a :: l => by
    have ih := filter_range_map f p l
    have hcomp1 : ((fun i => p (evAt (a :: l) i)) ∘ Nat.succ) = fun i => p (evAt l i) := by
      funext i; rfl
    have hcomp2 : ((fun i => f (evAt (a :: l) i)) ∘ Nat.succ) = fun i => f (evAt l i) := by
      funext i; rfl
    have h0 : evAt (a :: l) 0 = a := rfl
    rw [List.length_cons, List.range_succ_eq_map, List.filter_cons, List.filter_map, h0, hcomp1]
    by_cases hpa : p a <;>
      simp [hpa, List.map_map, hcomp2, ih, h0]

/-! ## Carry-forward walk lemmas -/

theorem carryLoop_length (events : List Event) :
    ∀ (idxs : List ℕ) (prior : ℚ), (carryLoop events idxs prior).1.length = events.length
  | [], _ => rfl
  | i :: rest, prior => by
    simp only [carryLoop]
    split
    · exact carryLoop_length events rest _
    · simp [setShares]

theorem carryLoop_untouched (events : List Event) :
    ∀ (idxs : List ℕ) (prior : ℚ) (j : ℕ), j ∉ idxs →
      evAt (carryLoop events idxs prior).1 j = evAt events j
  | [], _, _, _ => rfl
  | i :: rest, prior, j, hj => by
    simp only [carryLoop]
    split
    · exact carryLoop_untouched events rest _ j (fun h => hj (List.mem_cons_of_mem _ h))
    · exact evAt_setShares_ne _ _ _ _ (fun h => hj (h ▸ List.mem_cons_self _ _))

/-- The carry-forward walk computes the pure carrySpec on the lots it scans:
the first lot not fully covered by the prior sold quantity keeps its
remaining, reduced quantity. -/
theorem carryLoop_lots (events : List Event) :
    ∀ (idxs : List ℕ) (prior : ℚ), (∀ i ∈ idxs, i < events.length) → idxs.Nodup →
      lotsAt (carryLoop events idxs prior).1 (idxs.drop (carryLoop events idxs prior).2)
        = carrySpec prior (lotsAt events idxs)
  | [], prior, _, _ => rfl
  | i :: rest, prior, hv, hd => by
    have hi : i < events.length := hv i (List.mem_cons_self _ _)
    have hrest : ∀ j ∈ rest, j < events.length := fun j hj => hv j (List.mem_cons_of_mem _ hj)
    have hnotmem : i ∉ rest := (List.nodup_cons.mp hd).1
    have hdrest : rest.Nodup := (List.nodup_cons.mp hd).2
    simp only [carryLoop]
    split
    · rename_i hle
      rw [List.drop_succ_cons, lotsAt_cons, carrySpec]
      simp only [toLot, hle, if_pos]
      exact carryLoop_lots events rest _ hrest hdrest
    · rename_i hgt
      rw [List.drop_zero, lotsAt_cons, lotsAt_cons, carrySpec]
      simp only [toLot, hgt, if_neg, not_false_iff]
      rw [evAt_setShares_self _ _ _ hi, lotsAt_setShares_not_mem _ _ _ _ hnotmem]

/-! ## Frame machinery: everything except num_shares is preserved -/

theorem sameFrame_refl (l : List Event) : sameFrame l l :=
  ⟨rfl, fun _ => ⟨rfl, rfl, rfl, rfl⟩⟩

theorem sameFrame_trans {l₁ l₂ l₃ : List Event} (h₁ : sameFrame l₁ l₂) (h₂ : sameFrame l₂ l₃) :
    sameFrame l₁ l₃ := by
  refine ⟨h₁.1.trans h₂.1, fun i => ?_⟩
  obtain ⟨a1, a2, a3, a4⟩ := h₁.2 i
  obtain ⟨b1, b2, b3, b4⟩ := h₂.2 i
  exact ⟨b1.trans a1, b2.trans a2, b3.trans a3, b4.trans a4⟩

theorem set_eq_self_of_length_le : ∀ (l : List Event) (i : ℕ) (a : Event),
    l.length ≤ i → l.set i a = l
  | [], _, _, _ => rfl
  | _ :: _, 0, _, h => absurd h (by simp)
  | b :: l, i + 1, a, h => by
    simp only [List.set]
    rw [set_eq_self_of_length_le l i a (by simpa using h)]

theorem sameFrame_setShares (l : List Event) (i : ℕ) (q : ℚ) :
    sameFrame l (setShares l i q) := by
  refine ⟨(length_setShares l i q).symm, fun j => ?_⟩
  by_cases hlen : i < l.length
  · by_cases hij : i = j
    · subst hij
      rw [evAt_setShares_self _ _ _ hlen]
      exact ⟨rfl, rfl, rfl, rfl⟩
    · rw [evAt_setShares_ne _ _ _ _ hij]
      exact ⟨rfl, rfl, rfl, rfl⟩
  · rw [setShares, set_eq_self_of_length_le _ _ _ (le_of_not_lt hlen)]
    exact ⟨rfl, rfl, rfl, rfl⟩

theorem carryLoop_frame (events : List Event) :
    ∀ (idxs : List ℕ) (prior : ℚ), sameFrame events (carryLoop events idxs prior).1
  | [], _ => sameFrame_refl events
  | i :: rest, prior => by
    simp only [carryLoop]
    split
    · exact carryLoop_frame events rest _
    · exact sameFrame_setShares _ _ _

theorem carryLoop_nonneg (events : List Event) :
    ∀ (idxs : List ℕ) (prior : ℚ), (∀ ev ∈ events, 0 ≤ ev.num_shares) →
      ∀ ev ∈ (carryLoop events idxs prior).1, 0 ≤ ev.num_shares
  | [], _, h => h
  | i :: rest, prior, h => by
    simp only [carryLoop]
    split
    · exact carryLoop_nonneg events rest _ h
    · rename_i hgt
      intro ev hev
      rcases List.mem_or_eq_of_mem_set hev with h' | h'
      · exact h ev h'
      · subst h'
        simp only []
        rw [sub_nonneg]
        exact le_of_lt (lt_of_not_le hgt)

/-! ## Step lemmas for the pure FIFO trace -/

theorem traceGain_nil : traceGain [] = 0 := rfl

theorem traceGain_cons (st : Step) (tr : List Step) :
    traceGain (st :: tr) = stepGain st + traceGain tr := by
  simp [traceGain]

theorem fifoTrace_nil_left (bs : List Lot) : fifoTrace [] bs = some [] := rfl

theorem fifoTrace_cons_nil (s : Lot) (ss : List Lot) : fifoTrace (s :: ss) [] = none := rfl

theorem fifoTrace_cons_gt (s b : Lot) (ss bs : List Lot) (h : s.qty < b.qty) :
    fifoTrace (s :: ss) (b :: bs)
      = (fifoTrace ss (⟨b.qty - s.qty, b.val, b.cost⟩ :: bs)).map
          (fun tr => ⟨s.qty, s.val, b.val, s.cost, b.cost, StepKind.saleDone⟩ :: tr) := by
  simp only [fifoTrace, fifoSaleT, h, if_pos]
  cases fifoTrace ss (⟨b.qty - s.qty, b.val, b.cost⟩ :: bs) <;> simp

theorem fifoTrace_cons_lt (s b : Lot) (ss bs : List Lot) (h : b.qty < s.qty) :
    fifoTrace (s :: ss) (b :: bs)
      = (fifoTrace (⟨s.qty - b.qty, s.val, s.cost⟩ :: ss) bs).map
          (fun tr => ⟨b.qty, s.val, b.val, s.cost, b.cost, StepKind.buyDone⟩ :: tr) := by
  have h1 : ¬ s.qty < b.qty := not_lt_of_gt h
  simp only [fifoTrace, fifoSaleT, h1, if_neg, not_false_iff, h, if_pos]
  cases hfs : fifoSaleT ⟨s.qty - b.qty, s.val, s.cost⟩ bs with
  | none => simp
  | some p =>
    obtain ⟨ms, bs'⟩ := p
    simp only [Option.map_map]
    rfl

theorem fifoTrace_cons_eq (s b : Lot) (ss bs : List Lot) (h1 : ¬ s.qty < b.qty)
    (h2 : ¬ b.qty < s.qty) :
    fifoTrace (s :: ss) (b :: bs)
      = (fifoTrace ss bs).map
          (fun tr => ⟨s.qty, s.val, b.val, s.cost, b.cost, StepKind.bothDone⟩ :: tr) := by
  simp only [fifoTrace, fifoSaleT, h1, if_neg, not_false_iff, h2]
  cases fifoTrace ss bs <;> simp

/-! ## Matching loop lemmas -/

theorem matchLoopF_frame :
    ∀ (fuel : ℕ) (events : List Event) (sells buys : List ℕ) (si bi : ℕ) (cgt g : ℚ)
      (ev' : List Event),
      matchLoopF fuel events sells buys si bi cgt = some (g, ev') → sameFrame events ev'
  | 0, _, _, _, _, _, _, _, _, h => by simp [matchLoopF] at h
  | fuel + 1, events, sells, buys, si, bi, cgt, g, ev', h => by
    by_cases hsi : si < sells.length
    · by_cases hbi : bi < buys.length
      · simp only [matchLoopF, hsi, if_pos, hbi] at h
        split at h
        · exact sameFrame_trans (sameFrame_setShares _ _ _)
            (matchLoopF_frame fuel _ sells buys _ _ _ _ _ h)
        · split at h
          · exact sameFrame_trans (sameFrame_setShares _ _ _)
              (matchLoopF_frame fuel _ sells buys _ _ _ _ _ h)
          · exact sameFrame_trans (sameFrame_setShares _ _ _)
              (matchLoopF_frame fuel _ sells buys _ _ _ _ _ h)
      · simp [matchLoopF, hsi, hbi] at h
    · simp only [matchLoopF, hsi, if_neg, not_false_iff, Option.some_inj] at h
      rw [← (Prod.mk.injEq _ _ _ _).mp h |>.2]
      exact sameFrame_refl events

theorem setShares_nonneg {events : List Event} {q : ℚ}
    (h : ∀ ev ∈ events, 0 ≤ ev.num_shares) (hq : 0 ≤ q) (i : ℕ) :
    ∀ ev ∈ setShares events i q, 0 ≤ ev.num_shares := by
  intro ev hev
  rcases List.mem_or_eq_of_mem_set hev with h' | h'
  · exact h ev h'
  · subst h'; exact hq

theorem matchLoopF_nonneg :
    ∀ (fuel : ℕ) (events : List Event) (sells buys : List ℕ) (si bi : ℕ) (cgt g : ℚ)
      (ev' : List Event),
      (∀ ev ∈ events, 0 ≤ ev.num_shares) →
      matchLoopF fuel events sells buys si bi cgt = some (g, ev') →
      ∀ ev ∈ ev', 0 ≤ ev.num_shares
  | 0, _, _, _, _, _, _, _, _, _, h => by simp [matchLoopF] at h
  | fuel + 1, events, sells, buys, si, bi, cgt, g, ev', hnn, h => by
    by_cases hsi : si < sells.length
    · by_cases hbi : bi < buys.length
      · simp only [matchLoopF, hsi, if_pos, hbi] at h
        split at h
        · rename_i hlt
          exact matchLoopF_nonneg fuel _ sells buys _ _ _ _ _
            (setShares_nonneg hnn (by rw [sub_nonneg]; exact le_of_lt hlt) _) h
        · split at h
          · rename_i hlt
            exact matchLoopF_nonneg fuel _ sells buys _ _ _ _ _
              (setShares_nonneg hnn (by rw [sub_nonneg]; exact le_of_lt hlt) _) h
          · rename_i h1 h2
            exact matchLoopF_nonneg fuel _ sells buys _ _ _ _ _
              (setShares_nonneg hnn (by rw [sub_nonneg]; exact le_of_not_lt h1) _) h
      · simp [matchLoopF, hsi, hbi] at h
    · simp only [matchLoopF, hsi, if_neg, not_false_iff, Option.some_inj] at h
      rw [← (Prod.mk.injEq _ _ _ _).mp h |>.2]
      exact hnn

/-- Central refinement lemma: the imperative two-pointer matching loop
computes, up to the accumulator, exactly the gain of the pure FIFO trace of
the lots remaining at the two cursors. -/
theorem matchLoopF_gain (sells buys : List ℕ) (hsd : sells.Nodup) (hbd : buys.Nodup)
    (hdisj : ∀ i ∈ sells, i ∉ buys) :
    ∀ (fuel : ℕ) (events : List Event) (si bi : ℕ) (cgt : ℚ),
      (∀ i ∈ sells, i < events.length) →
      (∀ i ∈ buys, i < events.length) →
      sells.length - si + (buys.length - bi) < fuel →
      (matchLoopF fuel events sells buys si bi cgt).map Prod.fst
        = (fifoTrace (lotsAt events (sells.drop si)) (lotsAt events (buys.drop bi))).map
            (fun tr => cgt + traceGain tr) := by
  intro fuel
  induction fuel with
  | zero =>
    intro events si bi cgt _ _ hf
    exact absurd hf (by omega)
  | succ fuel ih =>
    intro events si bi cgt hsv hbv hf
    by_cases hsi : si < sells.length
    · by_cases hbi : bi < buys.length
      · have hsIdx : sells.getD si 0 = sells[si] := List.getD_eq_getElem _ _ hsi
        have hbIdx : buys.getD bi 0 = buys[bi] := List.getD_eq_getElem _ _ hbi
        have hsmem : sells[si] ∈ sells := List.getElem_mem hsi
        have hbmem : buys[bi] ∈ buys := List.getElem_mem hbi
        have hslen : sells[si] < events.length := hsv _ hsmem
        have hblen : buys[bi] < events.length := hbv _ hbmem
        have hdropS : sells.drop si = sells[si] :: sells.drop (si + 1) :=
          List.drop_eq_getElem_cons hsi
        have hdropB : buys.drop bi = buys[bi] :: buys.drop (bi + 1) :=
          List.drop_eq_getElem_cons hbi
        have hndS : sells[si] ∉ sells.drop (si + 1) := by
          have h1 : (sells.drop si).Nodup := (List.drop_sublist _ _).nodup hsd
          rw [hdropS] at h1
          exact (List.nodup_cons.mp h1).1
        have hndB : buys[bi] ∉ buys.drop (bi + 1) := by
          have h1 : (buys.drop bi).Nodup := (List.drop_sublist _ _).nodup hbd
          rw [hdropB] at h1
          exact (List.nodup_cons.mp h1).1
        have hbNotInSellDrop : ∀ k : ℕ, buys[bi] ∉ sells.drop k := fun k hmem =>
          hdisj _ (List.mem_of_mem_drop hmem) hbmem
        have hsNotInBuyDrop : ∀ k : ℕ, sells[si] ∉ buys.drop k := fun k hmem =>
          hdisj _ hsmem (List.mem_of_mem_drop hmem)
        simp only [matchLoopF, hsi, if_pos, hbi, hsIdx, hbIdx]
        split_ifs with hlt1 hlt2
        · -- purchase lot strictly larger than the disposal: disposal exhausted
          rw [ih (setShares events buys[bi]
                ((evAt events buys[bi]).num_shares - (evAt events sells[si]).num_shares))
              (si + 1) bi _
              (fun i hi => by rw [length_setShares]; exact hsv i hi)
              (fun i hi => by rw [length_setShares]; exact hbv i hi)
              (by omega)]
          rw [lotsAt_setShares_not_mem events (sells.drop (si + 1)) _ _ (hbNotInSellDrop _)]
          rw [hdropB, lotsAt_cons, lotsAt_cons,
            lotsAt_setShares_not_mem events (buys.drop (bi + 1)) _ _ hndB,
            evAt_setShares_self _ _ _ hblen]
          rw [hdropS, lotsAt_cons]
          rw [fifoTrace_cons_gt _ _ _ _ (by simpa [toLot] using hlt1)]
          simp only [toLot]
          cases fifoTrace (lotsAt events (sells.drop (si + 1)))
              (⟨(evAt events buys[bi]).num_shares - (evAt events sells[si]).num_shares,
                (evAt events buys[bi]).value, (evAt events buys[bi]).cost_of_transaction⟩ ::
                lotsAt events (buys.drop (bi + 1))) with
          | none => rfl
          | some tr =>
            simp only [Option.map_some', traceGain_cons, stepGain, chargeOf, Option.some_inj]
            ring
        · -- purchase lot strictly smaller: lot exhausted
          rw [ih (setShares events sells[si]
                ((evAt events sells[si]).num_shares - (evAt events buys[bi]).num_shares))
              si (bi + 1) _
              (fun i hi => by rw [length_setShares]; exact hsv i hi)
              (fun i hi => by rw [length_setShares]; exact hbv i hi)
              (by omega)]
          rw [lotsAt_setShares_not_mem events (buys.drop (bi + 1)) _ _ (hsNotInBuyDrop _)]
          rw [hdropS, lotsAt_cons, lotsAt_cons,
            lotsAt_setShares_not_mem events (sells.drop (si + 1)) _ _ hndS,
            evAt_setShares_self _ _ _ hslen]
          rw [hdropB, lotsAt_cons]
          rw [fifoTrace_cons_lt _ _ _ _ (by simpa [toLot] using hlt2)]
          simp only [toLot]
          cases fifoTrace
              (⟨(evAt events sells[si]).num_shares - (evAt events buys[bi]).num_shares,
                (evAt events sells[si]).value, (evAt events sells[si]).cost_of_transaction⟩ ::
                lotsAt events (sells.drop (si + 1)))
              (lotsAt events (buys.drop (bi + 1))) with
          | none => rfl
          | some tr =>
            simp only [Option.map_some', traceGain_cons, stepGain, chargeOf, Option.some_inj]
            ring
        · -- equal quantities: both advance
          rw [ih (setShares events sells[si]
                ((evAt events sells[si]).num_shares - (evAt events buys[bi]).num_shares))
              (si + 1) (bi + 1) _
              (fun i hi => by rw [length_setShares]; exact hsv i hi)
              (fun i hi => by rw [length_setShares]; exact hbv i hi)
              (by omega)]
          rw [lotsAt_setShares_not_mem events (sells.drop (si + 1)) _ _ hndS,
            lotsAt_setShares_not_mem events (buys.drop (bi + 1)) _ _ (hsNotInBuyDrop _)]
          rw [hdropS, hdropB, lotsAt_cons, lotsAt_cons]
          rw [fifoTrace_cons_eq _ _ _ _ (by simpa [toLot] using hlt1) (by simpa [toLot] using hlt2)]
          cases fifoTrace (lotsAt events (sells.drop (si + 1)))
              (lotsAt events (buys.drop (bi + 1))) with
          | none => rfl
          | some tr =>
            simp only [Option.map_some', traceGain_cons, stepGain, chargeOf, toLot,
              Option.some_inj]
            ring
      · have hdropb : buys.drop bi = [] := List.drop_eq_nil_of_le (le_of_not_lt hbi)
        have hdrops : sells.drop si = sells[si] :: sells.drop (si + 1) :=
          List.drop_eq_getElem_cons hsi
        rw [hdropb, hdrops, lotsAt_cons, lotsAt_nil]
        simp [matchLoopF, hsi, hbi, fifoTrace_cons_nil]
    · have hdrop : sells.drop si = [] := List.drop_eq_nil_of_le (le_of_not_lt hsi)
      rw [hdrop, lotsAt_nil]
      simp [matchLoopF, hsi, fifoTrace_nil_left, traceGain_nil]

/-! ## The bridge: engine = pure FIFO trace -/

theorem mem_sellIdxs {events : List Event} {s e : ℤ} {i : ℕ} (h : i ∈ sellIdxs events s e) :
    i < events.length ∧ (evAt events i).evType = EventType.SELL := by
  obtain ⟨hr, hp⟩ := List.mem_filter.mp h
  refine ⟨List.mem_range.mp hr, ?_⟩
  simp only [isWindowSell, Bool.and_eq_true, beq_iff_eq] at hp
  exact hp.1.1

theorem mem_buyIdxs {events : List Event} {e : ℤ} {i : ℕ} (h : i ∈ buyIdxs events e) :
    i < events.length ∧ (evAt events i).evType = EventType.BUY := by
  obtain ⟨hr, hp⟩ := List.mem_filter.mp h
  refine ⟨List.mem_range.mp hr, ?_⟩
  simp only [isRelevantBuy, Bool.and_eq_true, beq_iff_eq] at hp
  exact hp.1

theorem sellIdxs_nodup (events : List Event) (s e : ℤ) : (sellIdxs events s e).Nodup :=
  (List.nodup_range _).filter _

theorem buyIdxs_nodup (events : List Event) (e : ℤ) : (buyIdxs events e).Nodup :=
  (List.nodup_range _).filter _

theorem sellIdxs_disjoint_buyIdxs (events : List Event) (s e : ℤ) :
    ∀ i ∈ sellIdxs events s e, i ∉ buyIdxs events e := by
  intro i hs hb
  have h1 := (mem_sellIdxs hs).2
  have h2 := (mem_buyIdxs hb).2
  rw [h1] at h2
  exact EventType.noConfusion h2

theorem lotsAt_sellIdxs (events : List Event) (s e : ℤ) :
    lotsAt events (sellIdxs events s e) = sellLots events s e :=
  filter_range_map toLot (isWindowSell s e) events

theorem lotsAt_buyIdxs (events : List Event) (e : ℤ) :
    lotsAt events (buyIdxs events e) = buyLots events e :=
  filter_range_map toLot (isRelevantBuy e) events

/-- Main bridge theorem: the gain computed by the imperative engine (and
whether it completes at all) equals the gain of the pure FIFO trace of the
in-window disposal lots against the carry-forward-reduced purchase lots. -/
theorem calculate_gain_eq_trace (events : List Event) (s e : ℤ) :
    (calculate_gain_for_ticker events s e).map Prod.fst
      = (fifoTrace (sellLots events s e)
          (carrySpec (priorSum events s) (buyLots events e))).map traceGain := by
  have hcalc : calculate_gain_for_ticker events s e
      = matchLoopF
          ((sellIdxs events s e).length
            + ((buyIdxs events e).drop
                (carryLoop events (buyIdxs events e) (priorSum events s)).2).length + 1)
          (carryLoop events (buyIdxs events e) (priorSum events s)).1
          (sellIdxs events s e)
          ((buyIdxs events e).drop
            (carryLoop events (buyIdxs events e) (priorSum events s)).2)
          0 0 0 := rfl
  have hrelnd : (((buyIdxs events e).drop
      (carryLoop events (buyIdxs events e) (priorSum events s)).2)).Nodup :=
    (List.drop_sublist _ _).nodup (buyIdxs_nodup events e)
  have hdisj : ∀ i ∈ sellIdxs events s e,
      i ∉ (buyIdxs events e).drop (carryLoop events (buyIdxs events e) (priorSum events s)).2 :=
    fun i hi hmem =>
      sellIdxs_disjoint_buyIdxs events s e i hi (List.mem_of_mem_drop hmem)
  have hlen1 : ∀ i ∈ sellIdxs events s e,
      i < (carryLoop events (buyIdxs events e) (priorSum events s)).1.length := by
    intro i hi
    rw [carryLoop_length]
    exact (mem_sellIdxs hi).1
  have hlen2 : ∀ i ∈ (buyIdxs events e).drop
      (carryLoop events (buyIdxs events e) (priorSum events s)).2,
      i < (carryLoop events (buyIdxs events e) (priorSum events s)).1.length := by
    intro i hi
    rw [carryLoop_length]
    exact (mem_buyIdxs (List.mem_of_mem_drop hi)).1
  rw [hcalc, matchLoopF_gain _ _ (sellIdxs_nodup events s e) hrelnd hdisj _ _ 0 0 0
    hlen1 hlen2 (by omega)]
  rw [List.drop_zero, List.drop_zero]
  rw [lotsAt_congr events _ (sellIdxs events s e)
    (fun i hi => carryLoop_untouched events _ _ i
      (fun hmem => sellIdxs_disjoint_buyIdxs events s e i hi hmem))]
  rw [lotsAt_sellIdxs]
  rw [carryLoop_lots events (buyIdxs events e) (priorSum events s)
    (fun i hi => (mem_buyIdxs hi).1) (buyIdxs_nodup events e)]
  rw [lotsAt_buyIdxs]
  cases fifoTrace (sellLots events s e) (carrySpec (priorSum events s) (buyLots events e)) with
  | none => rfl
  | some tr => simp

/-! ## Pure lemmas about the FIFO trace -/

theorem traceGain_split (tr : List Step) :
    traceGain tr = (tr.map (fun st => (st.sVal - st.bVal) * st.qty)).sum
      - (tr.map chargeOf).sum := by
  induction tr with
  | nil => simp [traceGain]
  | cons st tr ih =>
    rw [traceGain_cons, ih]
    simp only [List.map_cons, List.sum_cons, stepGain]
    ring

theorem fifoSaleT_costs (sale : Lot) :
    ∀ (bs : List Lot) (ms : List Step) (bs' : List Lot),
      fifoSaleT sale bs = some (ms, bs') →
      sale.cost = 0 → (∀ b ∈ bs, b.cost = 0) →
      (∀ st ∈ ms, st.sCost = 0 ∧ st.bCost = 0) ∧ (∀ b ∈ bs', b.cost = 0)
  | [], ms, bs', h, _, _ => by simp [fifoSaleT] at h
  | b :: bs, ms, bs', h, hsc, hbc => by
    have hb0 : b.cost = 0 := hbc b (List.mem_cons_self _ _)
    have hbs : ∀ x ∈ bs, x.cost = 0 := fun x hx => hbc x (List.mem_cons_of_mem _ hx)
    simp only [fifoSaleT] at h
    split_ifs at h with h1 h2
    · obtain ⟨hms, hbs'⟩ := Prod.mk.injEq _ _ _ _ ▸ Option.some_inj.mp h
      subst hms; subst hbs'
      constructor
      · intro st hst
        rw [List.mem_singleton.mp hst]
        exact ⟨hsc, hb0⟩
      · intro x hx
        rcases List.mem_cons.mp hx with h' | h'
        · rw [h']; exact hb0
        · exact hbs x h'
    · cases hrec : fifoSaleT ⟨sale.qty - b.qty, sale.val, sale.cost⟩ bs with
      | none => rw [hrec] at h; exact absurd h (by simp)
      | some p =>
        obtain ⟨ms₀, bs₀⟩ := p
        rw [hrec] at h
        simp only [Option.some_inj] at h
        obtain ⟨hms, hbs'⟩ := Prod.mk.injEq _ _ _ _ ▸ h
        subst hms; subst hbs'
        obtain ⟨ih1, ih2⟩ := fifoSaleT_costs _ bs ms₀ bs₀ hrec hsc hbs
        refine ⟨?_, ih2⟩
        intro st hst
        rcases List.mem_cons.mp hst with h' | h'
        · rw [h']; exact ⟨hsc, hb0⟩
        · exact ih1 st h'
    · obtain ⟨hms, hbs'⟩ := Prod.mk.injEq _ _ _ _ ▸ Option.some_inj.mp h
      subst hms; subst hbs'
      constructor
      · intro st hst
        rw [List.mem_singleton.mp hst]
        exact ⟨hsc, hb0⟩
      · exact hbs

theorem fifoTrace_costs :
    ∀ (ss bs : List Lot) (tr : List Step),
      fifoTrace ss bs = some tr →
      (∀ l ∈ ss, l.cost = 0) → (∀ b ∈ bs, b.cost = 0) →
      ∀ st ∈ tr, st.sCost = 0 ∧ st.bCost = 0
  | [], bs, tr, h, _, _ => by
    simp only [fifoTrace, Option.some_inj] at h
    subst h
    intro st hst
    exact absurd hst (List.not_mem_nil st)
  | s :: ss, bs, tr, h, hsc, hbc => by
    have hs0 : s.cost = 0 := hsc s (List.mem_cons_self _ _)
    have hss : ∀ x ∈ ss, x.cost = 0 := fun x hx => hsc x (List.mem_cons_of_mem _ hx)
    cases hfs : fifoSaleT s bs with
    | none => simp [fifoTrace, hfs] at h
    | some p =>
      obtain ⟨ms, bs'⟩ := p
      cases htr : fifoTrace ss bs' with
      | none => simp [fifoTrace, hfs, htr] at h
      | some tr₀ =>
        simp only [fifoTrace, hfs, htr, Option.map_some', Option.some_inj] at h
        subst h
        obtain ⟨h1, h2⟩ := fifoSaleT_costs s bs ms bs' hfs hs0 hbc
        intro st hst
        rcases List.mem_append.mp hst with h' | h'
        · exact h1 st h'
        · exact fifoTrace_costs ss bs' tr₀ htr hss h2 st h'

theorem carrySpec_costs (bs : List Lot) (h : ∀ b ∈ bs, b.cost = 0) :
    ∀ (prior : ℚ), ∀ b ∈ carrySpec prior bs, b.cost = 0 := by
  induction bs with
  | nil => intro prior b hb; exact absurd hb (List.not_mem_nil b)
  | cons b bs ih =>
    intro prior x hx
    simp only [carrySpec] at hx
    split_ifs at hx with h1
    · exact ih (fun y hy => h y (List.mem_cons_of_mem _ hy)) _ x hx
    · rcases List.mem_cons.mp hx with h' | h'
      · rw [h']
        exact h b (List.mem_cons_self _ _)
      · exact h x (List.mem_cons_of_mem _ h')

theorem carrySpec_nonneg (bs : List Lot) (h : ∀ b ∈ bs, 0 ≤ b.qty) :
    ∀ (prior : ℚ), ∀ b ∈ carrySpec prior bs, 0 ≤ b.qty := by
  induction bs with
  | nil => intro prior b hb; exact absurd hb (List.not_mem_nil b)
  | cons b bs ih =>
    intro prior x hx
    simp only [carrySpec] at hx
    split_ifs at hx with h1
    · exact ih (fun y hy => h y (List.mem_cons_of_mem _ hy)) _ x hx
    · rcases List.mem_cons.mp hx with h' | h'
      · rw [h']
        simp only []
        rw [sub_nonneg]
        exact le_of_lt (lt_of_not_le h1)
      · exact h x (List.mem_cons_of_mem _ h')

theorem lot_qty_sum_nonneg (bs : List Lot) (h : ∀ b ∈ bs, 0 ≤ b.qty) :
    0 ≤ (bs.map Lot.qty).sum := by
  apply List.sum_nonneg
  intro x hx
  obtain ⟨b, hb, rfl⟩ := List.mem_map.mp hx
  exact h b hb

theorem fifoSaleT_none (sale : Lot) :
    ∀ bs : List Lot, (∀ b ∈ bs, 0 ≤ b.qty) → (bs.map Lot.qty).sum < sale.qty →
      fifoSaleT sale bs = none
  | [], _, _ => rfl
  | b :: bs, hnn, hlt => by
    have hb0 : 0 ≤ b.qty := hnn b (List.mem_cons_self _ _)
    have hbs : ∀ x ∈ bs, 0 ≤ x.qty := fun x hx => hnn x (List.mem_cons_of_mem _ hx)
    have hsum : 0 ≤ (bs.map Lot.qty).sum := lot_qty_sum_nonneg bs hbs
    simp only [List.map_cons, List.sum_cons] at hlt
    have h1 : ¬ sale.qty < b.qty := by
      intro hc
      have : b.qty + (bs.map Lot.qty).sum < b.qty := lt_of_lt_of_le (lt_trans hlt hc) (by linarith)
      linarith
    have h2 : b.qty < sale.qty := by linarith
    simp only [fifoSaleT, h1, if_neg, not_false_iff, h2, if_pos]
    rw [fifoSaleT_none _ bs hbs (by simp only []; linarith)]

theorem fifoSaleT_some_sum (sale : Lot) :
    ∀ (bs : List Lot) (ms : List Step) (bs' : List Lot),
      fifoSaleT sale bs = some (ms, bs') → (∀ b ∈ bs, 0 ≤ b.qty) →
      (bs'.map Lot.qty).sum = (bs.map Lot.qty).sum - sale.qty ∧ ∀ b ∈ bs', 0 ≤ b.qty
  | [], ms, bs', h, _ => by simp [fifoSaleT] at h
  | b :: bs, ms, bs', h, hnn => by
    have hbs : ∀ x ∈ bs, 0 ≤ x.qty := fun x hx => hnn x (List.mem_cons_of_mem _ hx)
    simp only [fifoSaleT] at h
    split_ifs at h with h1 h2
    · obtain ⟨hms, hbs'⟩ := Prod.mk.injEq _ _ _ _ ▸ Option.some_inj.mp h
      subst hms; subst hbs'
      constructor
      · simp only [List.map_cons, List.sum_cons]
        ring
      · intro x hx
        rcases List.mem_cons.mp hx with h' | h'
        · rw [h']
          simp only []
          rw [sub_nonneg]
          exact le_of_lt h1
        · exact hbs x h'
    · cases hrec : fifoSaleT ⟨sale.qty - b.qty, sale.val, sale.cost⟩ bs with
      | none => rw [hrec] at h; exact absurd h (by simp)
      | some p =>
        obtain ⟨ms₀, bs₀⟩ := p
        rw [hrec] at h
        simp only [Option.some_inj] at h
        obtain ⟨hms, hbs'⟩ := Prod.mk.injEq _ _ _ _ ▸ h
        subst hms; subst hbs'
        obtain ⟨ih1, ih2⟩ := fifoSaleT_some_sum _ bs ms₀ bs₀ hrec hbs
        refine ⟨?_, ih2⟩
        rw [ih1]
        simp only [List.map_cons, List.sum_cons]
        ring
    · obtain ⟨hms, hbs'⟩ := Prod.mk.injEq _ _ _ _ ▸ Option.some_inj.mp h
      subst hms; subst hbs'
      have heq : sale.qty = b.qty := le_antisymm (le_of_not_lt h2) (le_of_not_lt h1)
      refine ⟨?_, hbs⟩
      simp only [List.map_cons, List.sum_cons]
      rw [heq]
      ring

/-- If the disposal quantity strictly exceeds the available purchase
quantity, the pure FIFO matching runs off the end of the purchase queue. -/
theorem fifoTrace_none :
    ∀ (ss bs : List Lot), (∀ b ∈ bs, 0 ≤ b.qty) →
      (bs.map Lot.qty).sum < (ss.map Lot.qty).sum →
      fifoTrace ss bs = none
  | [], bs, hnn, hlt => by
    have := lot_qty_sum_nonneg bs hnn
    simp only [List.map_nil, List.sum_nil] at hlt
    linarith
  | s :: ss, bs, hnn, hlt => by
    cases hfs : fifoSaleT s bs with
    | none => simp [fifoTrace, hfs]
    | some p =>
      obtain ⟨ms, bs'⟩ := p
      have hle : s.qty ≤ (bs.map Lot.qty).sum := by
        by_contra hc
        rw [fifoSaleT_none s bs hnn (lt_of_not_le hc)] at hfs
        exact Option.noConfusion hfs
      obtain ⟨hsum, hnn'⟩ := fifoSaleT_some_sum s bs ms bs' hfs hnn
      have hrec : fifoTrace ss bs' = none := by
        apply fifoTrace_none ss bs' hnn'
        rw [hsum]
        simp only [List.map_cons, List.sum_cons] at hlt
        linarith
      simp [fifoTrace, hfs, hrec]

/-- Pure carry decomposition: when the prior sold quantity fully covers an
initial segment of the purchase lots and only partially covers the next lot,
that lot survives with its remaining (reduced) quantity. -/
theorem carrySpec_append :
    ∀ (bs₁ : List Lot) (prior : ℚ) (b : Lot) (bs₂ : List Lot),
      (∀ l ∈ bs₁, 0 ≤ l.qty) →
      (bs₁.map Lot.qty).sum ≤ prior →
      prior - (bs₁.map Lot.qty).sum < b.qty →
      carrySpec prior (bs₁ ++ b :: bs₂)
        = ⟨b.qty - (prior - (bs₁.map Lot.qty).sum), b.val, b.cost⟩ :: bs₂
  | [], prior, b, bs₂, _, _, hlt => by
    simp only [List.map_nil, List.sum_nil, sub_zero] at hlt
    have h1 : ¬ b.qty ≤ prior := by linarith
    simp [carrySpec, h1]
  | l :: bs₁, prior, b, bs₂, hnn, hle, hlt => by
    have hl0 : 0 ≤ l.qty := hnn l (List.mem_cons_self _ _)
    have hbs : ∀ x ∈ bs₁, 0 ≤ x.qty := fun x hx => hnn x (List.mem_cons_of_mem _ hx)
    have hsum : 0 ≤ (bs₁.map Lot.qty).sum := lot_qty_sum_nonneg bs₁ hbs
    simp only [List.map_cons, List.sum_cons] at hle hlt
    have h1 : l.qty ≤ prior := by linarith
    simp only [List.cons_append, carrySpec, h1, if_pos, List.append_eq]
    rw [carrySpec_append bs₁ (prior - l.qty) b bs₂ hbs (by linarith) (by linarith)]
    simp only [List.map_cons, List.sum_cons]
    congr 2
    ring

/-! ## Consumption-ledger lemmas -/

theorem getD_append_lt {α : Type} (d : α) : ∀ (l₁ l₂ : List α) (j : ℕ), j < l₁.length →
    (l₁ ++ l₂).getD j d = l₁.getD j d
  | [], _, _, h => absurd h (by simp)
  | _ :: _, _, 0, _ => rfl
  | _ :: l₁, l₂, j + 1, h => getD_append_lt d l₁ l₂ j (Nat.lt_of_succ_lt_succ h)

theorem getD_append_ge {α : Type} (d : α) : ∀ (l₁ l₂ : List α) (j : ℕ), l₁.length ≤ j →
    (l₁ ++ l₂).getD j d = l₂.getD (j - l₁.length) d
  | [], _, _, _ => by simp
  | _ :: _, _, 0, h => absurd h (by simp)
  | a :: l₁, l₂, j + 1, h => by
    have hrec := getD_append_ge d l₁ l₂ j (by simpa using h)
    simpa [Nat.succ_sub_succ] using hrec

theorem getD_len_le {α : Type} (d : α) : ∀ (l : List α) (j : ℕ), l.length ≤ j →
    l.getD j d = d
  | [], _, _ => rfl
  | _ :: _, 0, h => absurd h (by simp)
  | _ :: l, j + 1, h => getD_len_le d l j (by simpa using h)

theorem annotate_map_fst (bs : List Lot) : (annotate bs).map Prod.fst = bs := by
  have hc : (Prod.fst ∘ fun b : Lot => (b, (0 : ℚ))) = id := by funext b; rfl
  rw [annotate, List.map_map, hc, List.map_id]

theorem annotate_getD : ∀ (bs : List Lot) (j : ℕ),
    (annotate bs).getD j (default, 0) = (bs.getD j default, 0)
  | [], _ => rfl
  | _ :: _, 0 => rfl
  | _ :: bs, j + 1 => annotate_getD bs j

theorem annotate_snd_sum (bs : List Lot) : ((annotate bs).map Prod.snd).sum = 0 := by
  apply List.sum_eq_zero
  intro x hx
  simp only [annotate, List.map_map] at hx
  obtain ⟨b, _, rfl⟩ := List.mem_map.mp hx
  rfl

theorem annotate_qty_nonneg (bs : List Lot) (h : ∀ b ∈ bs, 0 ≤ b.qty) :
    ∀ p ∈ annotate bs, 0 ≤ p.1.qty := by
  intro p hp
  obtain ⟨b, hb, rfl⟩ := List.mem_map.mp hp
  exact h b hb

/-- Erasing the consumption annotations from the instrumented matcher gives
back fifoSaleT: the instrumented matcher performs the same FIFO matching. -/
theorem fifoSaleL_erase (sale : Lot) :
    ∀ abs : List (Lot × ℚ),
      (fifoSaleL sale abs).map (fun p => (p.1, p.2.2.map Prod.fst))
        = fifoSaleT sale (abs.map Prod.fst)
  | [] => rfl
  | (b, c) :: abs => by
    simp only [fifoSaleL, fifoSaleT, List.map_cons]
    split_ifs with h1 h2
    · rfl
    · have ih := fifoSaleL_erase ⟨sale.qty - b.qty, sale.val, sale.cost⟩ abs
      cases hrec : fifoSaleL ⟨sale.qty - b.qty, sale.val, sale.cost⟩ abs with
      | none =>
        rw [hrec] at ih
        simp only [Option.map_none'] at ih
        rw [← ih]
        rfl
      | some p =>
        obtain ⟨ms, fin, rest⟩ := p
        rw [hrec] at ih
        simp only [Option.map_some'] at ih
        rw [← ih]
        rfl
    · rfl

/-- Erasure for the full instrumented matching: its steps are exactly those
of fifoTrace on the unannotated purchase queue. -/
theorem fifoLedger_erase :
    ∀ (ss : List Lot) (abs : List (Lot × ℚ)),
      (fifoLedger ss abs).map Prod.fst = fifoTrace ss (abs.map Prod.fst)
  | [], _ => rfl
  | s :: ss, abs => by
    have herase := fifoSaleL_erase s abs
    cases hrec : fifoSaleL s abs with
    | none =>
      rw [hrec] at herase
      simp only [Option.map_none'] at herase
      simp [fifoLedger, fifoTrace, hrec, ← herase]
    | some p =>
      obtain ⟨ms, fin, rest⟩ := p
      rw [hrec] at herase
      simp only [Option.map_some'] at herase
      have ih := fifoLedger_erase ss rest
      cases hl : fifoLedger ss rest with
      | none =>
        rw [hl] at ih
        simp only [Option.map_none'] at ih
        simp [fifoLedger, fifoTrace, hrec, hl, ← herase, ← ih]
      | some q =>
        rw [hl] at ih
        simp only [Option.map_some'] at ih
        simp [fifoLedger, fifoTrace, hrec, hl, ← herase, ← ih]

/-- Conservation for one disposal: the emitted-plus-remaining ledger is
position-aligned with the input, each entry conserves remaining quantity
plus credited consumption, remaining quantities stay nonnegative, and the
total credited consumption grows by exactly the matched step quantities. -/
theorem fifoSaleL_conserve (sale : Lot) :
    ∀ (abs : List (Lot × ℚ)) (ms : List Step) (fin rest : List (Lot × ℚ)),
      fifoSaleL sale abs = some (ms, fin, rest) →
      (fin ++ rest).length = abs.length
      ∧ (∀ j : ℕ,
          ((fin ++ rest).getD j (default, 0)).1.qty + ((fin ++ rest).getD j (default, 0)).2
            = (abs.getD j (default, 0)).1.qty + (abs.getD j (default, 0)).2)
      ∧ ((∀ p ∈ abs, 0 ≤ p.1.qty) → ∀ p ∈ fin ++ rest, 0 ≤ p.1.qty)
      ∧ ((fin ++ rest).map Prod.snd).sum
          = (abs.map Prod.snd).sum + (ms.map Step.qty).sum
  | [], ms, fin, rest, h => by simp [fifoSaleL] at h
  | (b, c) :: abs, ms, fin, rest, h => by
    simp only [fifoSaleL] at h
    split_ifs at h with h1 h2
    · obtain ⟨hms, hfr⟩ := Prod.mk.injEq _ _ _ _ ▸ Option.some_inj.mp h
      obtain ⟨hfin, hrest⟩ := Prod.mk.injEq _ _ _ _ ▸ hfr
      subst hms; subst hfin; subst hrest
      refine ⟨by simp, ?_, ?_, ?_⟩
      · intro j
        cases j with
        | zero => simp only [List.nil_append, List.getD_cons_zero]; ring
        | succ j => rfl
      · intro hnn p hp
        simp only [List.nil_append] at hp
        rcases List.mem_cons.mp hp with h' | h'
        · rw [h']
          simp only []
          rw [sub_nonneg]
          exact le_of_lt h1
        · exact hnn p (List.mem_cons_of_mem _ h')
      · simp only [List.nil_append, List.map_cons, List.sum_cons, List.map_nil, List.sum_nil]
        ring
    · cases hrec : fifoSaleL ⟨sale.qty - b.qty, sale.val, sale.cost⟩ abs with
      | none => rw [hrec] at h; exact absurd h (by simp)
      | some p =>
        obtain ⟨ms₀, fin₀, rest₀⟩ := p
        rw [hrec] at h
        simp only [Option.some_inj] at h
        obtain ⟨hms, hfr⟩ := Prod.mk.injEq _ _ _ _ ▸ h
        obtain ⟨hfin, hrest⟩ := Prod.mk.injEq _ _ _ _ ▸ hfr
        subst hms; subst hfin; subst hrest
        obtain ⟨ih1, ih2, ih3, ih4⟩ := fifoSaleL_conserve _ abs ms₀ fin₀ rest₀ hrec
        refine ⟨by simpa using ih1, ?_, ?_, ?_⟩
        · intro j
          cases j with
          | zero => simp only [List.cons_append, List.getD_cons_zero]; ring
          | succ j =>
            simp only [List.cons_append, List.getD_cons_succ]
            exact ih2 j
        · intro hnn p hp
          simp only [List.cons_append] at hp
          rcases List.mem_cons.mp hp with h' | h'
          · rw [h']
          · exact ih3 (fun q hq => hnn q (List.mem_cons_of_mem _ hq)) p h'
        · simp only [List.cons_append, List.map_cons, List.sum_cons]
          rw [ih4]
          ring
    · obtain ⟨hms, hfr⟩ := Prod.mk.injEq _ _ _ _ ▸ Option.some_inj.mp h
      obtain ⟨hfin, hrest⟩ := Prod.mk.injEq _ _ _ _ ▸ hfr
      subst hms; subst hfin; subst hrest
      have heq : sale.qty = b.qty := le_antisymm (le_of_not_lt h2) (le_of_not_lt h1)
      refine ⟨by simp, ?_, ?_, ?_⟩
      · intro j
        cases j with
        | zero => simp only [List.cons_append, List.nil_append, List.getD_cons_zero]; ring
        | succ j => rfl
      · intro hnn p hp
        simp only [List.cons_append, List.nil_append] at hp
        rcases List.mem_cons.mp hp with h' | h'
        · rw [h']
        · exact hnn p (List.mem_cons_of_mem _ h')
      · simp only [List.cons_append, List.nil_append, List.map_cons, List.sum_cons,
          List.map_nil, List.sum_nil]
        rw [heq]
        ring

/-- Conservation for the full matching: the final ledger is position-aligned
with the initial queue, conserves per-entry quantity plus consumption, keeps
remaining quantities nonnegative, and its total credited consumption equals
the total matched quantity of the trace. -/
theorem fifoLedger_conserve :
    ∀ (ss : List Lot) (abs : List (Lot × ℚ)) (tr : List Step) (ledger : List (Lot × ℚ)),
      fifoLedger ss abs = some (tr, ledger) →
      ledger.length = abs.length
      ∧ (∀ j : ℕ,
          (ledger.getD j (default, 0)).1.qty + (ledger.getD j (default, 0)).2
            = (abs.getD j (default, 0)).1.qty + (abs.getD j (default, 0)).2)
      ∧ ((∀ p ∈ abs, 0 ≤ p.1.qty) → ∀ p ∈ ledger, 0 ≤ p.1.qty)
      ∧ (ledger.map Prod.snd).sum = (abs.map Prod.snd).sum + (tr.map Step.qty).sum
  | [], abs, tr, ledger, h => by
    simp only [fifoLedger, Option.some_inj] at h
    obtain ⟨htr, hled⟩ := Prod.mk.injEq _ _ _ _ ▸ h
    subst htr; subst hled
    exact ⟨rfl, fun _ => rfl, fun hnn => hnn, by simp⟩
  | s :: ss, abs, tr, ledger, h => by
    cases hrec : fifoSaleL s abs with
    | none => simp [fifoLedger, hrec] at h
    | some p =>
      obtain ⟨ms, fin, rest⟩ := p
      cases hl : fifoLedger ss rest with
      | none => simp [fifoLedger, hrec, hl] at h
      | some q =>
        obtain ⟨tr', ledger'⟩ := q
        simp only [fifoLedger, hrec, hl, Option.map_some', Option.some_inj] at h
        obtain ⟨htr, hled⟩ := Prod.mk.injEq _ _ _ _ ▸ h
        subst htr; subst hled
        obtain ⟨hs1, hs2, hs3, hs4⟩ := fifoSaleL_conserve s abs ms fin rest hrec
        obtain ⟨hl1, hl2, hl3, hl4⟩ := fifoLedger_conserve ss rest tr' ledger' hl
        have hlen : (fin ++ ledger').length = abs.length := by
          rw [List.length_append, hl1, ← List.length_append, hs1]
        refine ⟨hlen, ?_, ?_, ?_⟩
        · intro j
          by_cases hj : j < fin.length
          · rw [getD_append_lt _ _ _ _ hj, ← getD_append_lt _ fin rest _ hj]
            exact hs2 j
          · have hj' : fin.length ≤ j := le_of_not_lt hj
            rw [getD_append_ge _ _ _ _ hj']
            have := hl2 (j - fin.length)
            rw [this, ← getD_append_ge _ fin rest _ hj']
            exact hs2 j
        · intro hnn p hp
          have hmid : ∀ q ∈ fin ++ rest, 0 ≤ q.1.qty := hs3 hnn
          rcases List.mem_append.mp hp with h' | h'
          · exact hmid p (List.mem_append.mpr (Or.inl h'))
          · exact hl3 (fun q hq => hmid q (List.mem_append.mpr (Or.inr hq))) p h'
        · rw [List.map_append, List.sum_append, hl4, List.map_append, List.sum_append]
          have hmid : (fin.map Prod.snd).sum + (rest.map Prod.snd).sum
              = (abs.map Prod.snd).sum + (ms.map Step.qty).sum := by
            rw [← List.sum_append, ← List.map_append]
            exact hs4
          linarith [hmid]

/-! ## Monotone decrease of num_shares -/

theorem evAt_nonneg {events : List Event} (h : ∀ ev ∈ events, 0 ≤ ev.num_shares) (i : ℕ) :
    0 ≤ (evAt events i).num_shares := by
  by_cases hi : i < events.length
  · rw [evAt, List.getD_eq_getElem _ _ hi]
    exact h _ (List.getElem_mem hi)
  · rw [evAt, getD_len_le _ _ _ (le_of_not_lt hi)]
    exact le_refl _

theorem setShares_le (events : List Event) (i : ℕ) (q : ℚ)
    (hq : q ≤ (evAt events i).num_shares) :
    ∀ j : ℕ, (evAt (setShares events i q) j).num_shares ≤ (evAt events j).num_shares := by
  intro j
  by_cases hij : i = j
  · subst hij
    by_cases hi : i < events.length
    · rw [evAt_setShares_self _ _ _ hi]
      exact hq
    · rw [setShares, set_eq_self_of_length_le _ _ _ (le_of_not_lt hi)]
  · rw [evAt_setShares_ne _ _ _ _ hij]

theorem priorSum_nonneg (events : List Event) (s : ℤ)
    (hnn : ∀ ev ∈ events, 0 ≤ ev.num_shares) : 0 ≤ priorSum events s := by
  apply List.sum_nonneg
  intro x hx
  obtain ⟨ev, hev, rfl⟩ := List.mem_map.mp hx
  exact hnn ev (List.mem_of_mem_filter hev)

theorem carryLoop_decreasing (events : List Event) :
    ∀ (idxs : List ℕ) (prior : ℚ), 0 ≤ prior →
      ∀ j : ℕ, (evAt (carryLoop events idxs prior).1 j).num_shares
        ≤ (evAt events j).num_shares
  | [], _, _, _ => le_refl _
  | i :: rest, prior, hp, j => by
    simp only [carryLoop]
    split
    · rename_i hle
      exact carryLoop_decreasing events rest _ (sub_nonneg.mpr hle) j
    · exact setShares_le events i _ (sub_le_self _ hp) j

theorem matchLoopF_decreasing :
    ∀ (fuel : ℕ) (events : List Event) (sells buys : List ℕ) (si bi : ℕ) (cgt g : ℚ)
      (ev' : List Event),
      (∀ ev ∈ events, 0 ≤ ev.num_shares) →
      matchLoopF fuel events sells buys si bi cgt = some (g, ev') →
      ∀ j : ℕ, (evAt ev' j).num_shares ≤ (evAt events j).num_shares
  | 0, _, _, _, _, _, _, _, _, _, h => by simp [matchLoopF] at h
  | fuel + 1, events, sells, buys, si, bi, cgt, g, ev', hnn, h => by
    by_cases hsi : si < sells.length
    · by_cases hbi : bi < buys.length
      · simp only [matchLoopF, hsi, if_pos, hbi] at h
        split at h
        · rename_i hlt
          have hstep := setShares_le events (buys.getD bi 0) _
            (sub_le_self _ (evAt_nonneg hnn (sells.getD si 0)))
          have hrec := matchLoopF_decreasing fuel _ sells buys _ _ _ _ _
            (setShares_nonneg hnn (by rw [sub_nonneg]; exact le_of_lt hlt) _) h
          exact fun j => le_trans (hrec j) (hstep j)
        · split at h
          · rename_i hlt
            have hstep := setShares_le events (sells.getD si 0) _
              (sub_le_self _ (evAt_nonneg hnn (buys.getD bi 0)))
            have hrec := matchLoopF_decreasing fuel _ sells buys _ _ _ _ _
              (setShares_nonneg hnn (by rw [sub_nonneg]; exact le_of_lt hlt) _) h
            exact fun j => le_trans (hrec j) (hstep j)
          · rename_i h1 h2
            have hstep := setShares_le events (sells.getD si 0) _
              (sub_le_self _ (evAt_nonneg hnn (buys.getD bi 0)))
            have hrec := matchLoopF_decreasing fuel _ sells buys _ _ _ _ _
              (setShares_nonneg hnn (by rw [sub_nonneg]; exact le_of_not_lt h1) _) h
            exact fun j => le_trans (hrec j) (hstep j)
      · simp [matchLoopF, hsi, hbi] at h
    · simp only [matchLoopF, hsi, if_neg, not_false_iff, Option.some_inj] at h
      rw [← (Prod.mk.injEq _ _ _ _).mp h |>.2]
      exact fun _ => le_refl _

/-! ## Claim theorems -/

/-- Claim C1: for every event sequence and reporting window in which every
event's transaction cost is zero, whenever calculate_gain_for_ticker
completes (the relevant purchase lots fully cover the in-window disposals),
it returns the sum over all FIFO matches of
(disposal unit value - purchase unit value) * matched quantity. -/
theorem gain_is_sum_of_fifo_matches (events : List Event) (s e : ℤ) (g : ℚ)
    (ev' : List Event)
    (hcost : ∀ ev ∈ events, ev.cost_of_transaction = 0)
    (hrun : calculate_gain_for_ticker events s e = some (g, ev')) :
    ∃ tr : List Step,
      fifoTrace (sellLots events s e) (carrySpec (priorSum events s) (buyLots events e))
          = some tr
        ∧ g = (tr.map (fun st => (st.sVal - st.bVal) * st.qty)).sum := by
  have hb := calculate_gain_eq_trace events s e
  rw [hrun] at hb
  cases htr : fifoTrace (sellLots events s e)
      (carrySpec (priorSum events s) (buyLots events e)) with
  | none => rw [htr] at hb; simp at hb
  | some tr =>
    refine ⟨tr, rfl, ?_⟩
    rw [htr] at hb
    simp only [Option.map_some', Option.some_inj] at hb
    rw [hb, traceGain_split]
    have hzero : ∀ st ∈ tr, st.sCost = 0 ∧ st.bCost = 0 := by
      apply fifoTrace_costs _ _ _ htr
      · intro l hl
        obtain ⟨ev, hev, rfl⟩ := List.mem_map.mp hl
        exact hcost ev (List.mem_of_mem_filter hev)
      · apply carrySpec_costs
        intro b hbm
        obtain ⟨ev, hev, rfl⟩ := List.mem_map.mp hbm
        exact hcost ev (List.mem_of_mem_filter hev)
    have hch : (tr.map chargeOf).sum = 0 := by
      apply List.sum_eq_zero
      intro x hx
      obtain ⟨st, hst, rfl⟩ := List.mem_map.mp hx
      obtain ⟨h1, h2⟩ := hzero st hst
      cases hk : st.kind <;> simp [chargeOf, hk, h1, h2]
    rw [hch, sub_zero]

/-- Witness for C1: scenario A with zero costs; the single equal-quantities
match contributes (12 - 10) * 100 = 200. -/
theorem gain_is_sum_of_fifo_matches_w :
    ∃ tr : List Step,
      fifoTrace (sellLots scenarioA y2025start y2025end)
          (carrySpec (priorSum scenarioA y2025start) (buyLots scenarioA y2025end))
          = some tr
        ∧ (200 : ℚ) = (tr.map (fun st => (st.sVal - st.bVal) * st.qty)).sum :=
  gain_is_sum_of_fifo_matches scenarioA y2025start y2025end 200 scenarioA_sold
    (by decide) (by with_unfolding_all rfl)

/-- Claim C2 counterexample: in costLotHistory the purchase lot (cost 5) is
fully matched by the equal-quantities branch (the trace shows one bothDone
step consuming the lot's whole quantity), yet the returned gain is 200, not
200 - 5: the lot's cost is omitted at its exhausting match. -/
theorem lot_cost_equal_branch_cex :
    (calculate_gain_for_ticker costLotHistory y2025start y2025end).map Prod.fst = some 200
    ∧ fifoTrace (sellLots costLotHistory y2025start y2025end)
          (carrySpec (priorSum costLotHistory y2025start) (buyLots costLotHistory y2025end))
        = some [⟨100, 12, 10, 0, 5, StepKind.bothDone⟩]
    ∧ (200 : ℚ) ≠ 200 - 5 :=
  ⟨by with_unfolding_all rfl, by with_unfolding_all rfl, by norm_num⟩

/-- Claim C2 (amended): on every completing run the gain is the cost-free
match sum minus the charged costs, where a step charges the purchase lot's
cost exactly when the lot alone is exhausted (strictly-smaller branch), and
charges the disposal's cost otherwise — in particular the equal-quantities
branch charges the disposal's cost and omits the exhausted lot's cost, and a
partially drawn lot is never charged. -/
theorem lot_cost_charged_at_buy_exhaustion (events : List Event) (s e : ℤ) (g : ℚ)
    (ev' : List Event)
    (hrun : calculate_gain_for_ticker events s e = some (g, ev')) :
    ∃ tr : List Step,
      fifoTrace (sellLots events s e) (carrySpec (priorSum events s) (buyLots events e))
          = some tr
        ∧ g = (tr.map (fun st => (st.sVal - st.bVal) * st.qty)).sum - (tr.map chargeOf).sum
        ∧ ∀ st ∈ tr,
            (st.kind = StepKind.buyDone → chargeOf st = st.bCost)
            ∧ (st.kind ≠ StepKind.buyDone → chargeOf st = st.sCost) := by
  have hb := calculate_gain_eq_trace events s e
  rw [hrun] at hb
  cases htr : fifoTrace (sellLots events s e)
      (carrySpec (priorSum events s) (buyLots events e)) with
  | none => rw [htr] at hb; simp at hb
  | some tr =>
    refine ⟨tr, rfl, ?_, ?_⟩
    · rw [htr] at hb
      simp only [Option.map_some', Option.some_inj] at hb
      rw [hb, traceGain_split]
    · intro st _
      constructor
      · intro hk; simp [chargeOf, hk]
      · intro hk
        cases hkind : st.kind
        · simp [chargeOf, hkind]
        · exact absurd hkind hk
        · simp [chargeOf, hkind]

/-- Witness for the amended C2: on costLotHistory the completing run yields
gain 200 with a single bothDone step charging the disposal's zero cost. -/
theorem lot_cost_charged_at_buy_exhaustion_w :
    ∃ tr : List Step,
      fifoTrace (sellLots costLotHistory y2025start y2025end)
          (carrySpec (priorSum costLotHistory y2025start) (buyLots costLotHistory y2025end))
          = some tr
        ∧ (200 : ℚ)
            = (tr.map (fun st => (st.sVal - st.bVal) * st.qty)).sum - (tr.map chargeOf).sum
        ∧ ∀ st ∈ tr,
            (st.kind = StepKind.buyDone → chargeOf st = st.bCost)
            ∧ (st.kind ≠ StepKind.buyDone → chargeOf st = st.sCost) :=
  lot_cost_charged_at_buy_exhaustion costLotHistory y2025start y2025end 200 costLotFinal
    (by with_unfolding_all rfl)

/-- Claim C3: a purchase lot partially consumed by prior-window disposals
takes part in the in-window matching with its remaining (not original)
quantity; in particular scenario E returns 250. -/
theorem carry_forward_remaining_qty (events : List Event) (s e : ℤ)
    (bs₁ : List Lot) (b : Lot) (bs₂ : List Lot)
    (hsplit : buyLots events e = bs₁ ++ b :: bs₂)
    (hnn : ∀ l ∈ bs₁, 0 ≤ l.qty)
    (hcover : (bs₁.map Lot.qty).sum ≤ priorSum events s)
    (hstrict : priorSum events s - (bs₁.map Lot.qty).sum < b.qty) :
    (calculate_gain_for_ticker events s e).map Prod.fst
      = (fifoTrace (sellLots events s e)
          (⟨b.qty - (priorSum events s - (bs₁.map Lot.qty).sum), b.val, b.cost⟩ :: bs₂)).map
          traceGain
    ∧ (calculate_gain_for_ticker scenarioE y2025start y2025end).map Prod.fst = some 250 := by
  constructor
  · rw [calculate_gain_eq_trace, hsplit, carrySpec_append bs₁ _ b bs₂ hnn hcover hstrict]
  · with_unfolding_all rfl

/-- Witness for C3: scenario E instantiates the carry-forward split with an
empty fully-consumed prefix and the 2024 lot reduced from 100 to 50. -/
theorem carry_forward_remaining_qty_w :
    (calculate_gain_for_ticker scenarioE y2025start y2025end).map Prod.fst = some 250 :=
  (carry_forward_remaining_qty scenarioE y2025start y2025end [] ⟨100, 10, 0⟩ [⟨100, 9, 0⟩]
    (by with_unfolding_all rfl)
    (fun l hl => absurd hl (List.not_mem_nil l))
    (by have hps : priorSum scenarioE y2025start = 50 := by with_unfolding_all rfl
        rw [hps]; norm_num)
    (by have hps : priorSum scenarioE y2025start = 50 := by with_unfolding_all rfl
        rw [hps]; norm_num)).2

/-- Claim C4: a disposal dated exactly at the window start or end is
in-window, one strictly outside either boundary is not, and a disposal
dated strictly after the window end has no effect on the returned gain. -/
theorem window_boundaries_inclusive (events : List Event) (s e : ℤ) (ev : Event)
    (hse : s ≤ e) (hsell : ev.evType = EventType.SELL) :
    (ev.date = s ∨ ev.date = e → isWindowSell s e ev = true)
    ∧ (ev.date < s ∨ e < ev.date → isWindowSell s e ev = false)
    ∧ (e < ev.date →
        (calculate_gain_for_ticker (events ++ [ev]) s e).map Prod.fst
          = (calculate_gain_for_ticker events s e).map Prod.fst) := by
  refine ⟨?_, ?_, ?_⟩
  · rintro (h | h) <;> simp [isWindowSell, hsell, h, hse]
  · rintro (h | h) <;> simp [isWindowSell, hsell] <;> intro h' <;> omega
  · intro hlate
    have hnotwin : ¬ (ev.date ≤ e) := not_le.mpr hlate
    have hnotprior : ¬ (ev.date < s) := by omega
    rw [calculate_gain_eq_trace, calculate_gain_eq_trace]
    have h1 : sellLots (events ++ [ev]) s e = sellLots events s e := by
      unfold sellLots
      rw [List.filter_append]
      have hf : List.filter (isWindowSell s e) [ev] = [] := by
        simp [isWindowSell, hnotwin]
      rw [hf, List.append_nil]
    have h2 : buyLots (events ++ [ev]) e = buyLots events e := by
      unfold buyLots
      rw [List.filter_append]
      have hf : List.filter (isRelevantBuy e) [ev] = [] := by
        simp [isRelevantBuy, hsell]
      rw [hf, List.append_nil]
    have h3 : priorSum (events ++ [ev]) s = priorSum events s := by
      unfold priorSum
      rw [List.filter_append]
      have hf : List.filter (isPriorSell s) [ev] = [] := by
        simp [isPriorSell, hnotprior]
      rw [hf, List.append_nil]
    rw [h1, h2, h3]

/-- Witness for C4: appending a 2026 disposal to scenario A leaves the 2025
gain unchanged. -/
theorem window_boundaries_inclusive_w :
    (calculate_gain_for_ticker (scenarioA ++ [lateSell]) y2025start y2025end).map Prod.fst
      = (calculate_gain_for_ticker scenarioA y2025start y2025end).map Prod.fst :=
  (window_boundaries_inclusive scenarioA y2025start y2025end lateSell (by decide) rfl).2.2
    (by decide)

/-- Claim C5: when the total in-window disposal quantity strictly exceeds
the purchase quantity remaining after the carry-forward subtraction, the
engine performs an out-of-range access (modelled by none) instead of
returning a number. -/
theorem insufficient_lots_index_error (events : List Event) (s e : ℤ)
    (hnn : ∀ ev ∈ events, 0 ≤ ev.num_shares)
    (hexcess : ((carrySpec (priorSum events s) (buyLots events e)).map Lot.qty).sum
        < ((sellLots events s e).map Lot.qty).sum) :
    calculate_gain_for_ticker events s e = none := by
  have hb := calculate_gain_eq_trace events s e
  have hnone : fifoTrace (sellLots events s e)
      (carrySpec (priorSum events s) (buyLots events e)) = none := by
    apply fifoTrace_none _ _ _ hexcess
    apply carrySpec_nonneg
    intro b hbm
    obtain ⟨ev, hev, rfl⟩ := List.mem_map.mp hbm
    exact hnn ev (List.mem_of_mem_filter hev)
  rw [hnone] at hb
  cases hc : calculate_gain_for_ticker events s e with
  | none => rfl
  | some p => rw [hc] at hb; simp at hb

/-- Witness for C5: a bare disposal of 5 shares with no purchase history
makes the engine fail. -/
theorem insufficient_lots_index_error_w :
    calculate_gain_for_ticker onlySellHistory y2025start y2025end = none :=
  insufficient_lots_index_error onlySellHistory y2025start y2025end (by decide)
    (by have h1 : ((carrySpec (priorSum onlySellHistory y2025start)
            (buyLots onlySellHistory y2025end)).map Lot.qty).sum = 0 := by
          with_unfolding_all rfl
        have h2 : ((sellLots onlySellHistory y2025start y2025end).map Lot.qty).sum = 5 := by
          with_unfolding_all rfl
        rw [h1, h2]; norm_num)

/-- Claim C6 counterexample: shuffledHistory is a permutation of the
chronologically sorted sortedHistory, yet the engine returns 20 on the
shuffled order and 10 on the sorted order. -/
theorem permutation_sensitivity_cex :
    shuffledHistory.Perm sortedHistory
    ∧ List.Pairwise (fun a b => a.date ≤ b.date) sortedHistory
    ∧ (calculate_gain_for_ticker shuffledHistory y2025start y2025end).map Prod.fst = some 20
    ∧ (calculate_gain_for_ticker sortedHistory y2025start y2025end).map Prod.fst = some 10
    ∧ (20 : ℚ) ≠ 10 :=
  ⟨List.Perm.swap _ _ _, by decide, by with_unfolding_all rfl, by with_unfolding_all rfl,
    by norm_num⟩

/-- Claim C6 (amended): the engine never sorts; its result is fully
determined by the order-preserved disposal and purchase partitions (and the
order-independent prior-disposal sum), so exactly the permutations
preserving those streams leave the gain unchanged. -/
theorem gain_determined_by_partitions (ev₁ ev₂ : List Event) (s e : ℤ)
    (hs : ev₁.filter (isWindowSell s e) = ev₂.filter (isWindowSell s e))
    (hb : ev₁.filter (isRelevantBuy e) = ev₂.filter (isRelevantBuy e))
    (hp : priorSum ev₁ s = priorSum ev₂ s) :
    (calculate_gain_for_ticker ev₁ s e).map Prod.fst
      = (calculate_gain_for_ticker ev₂ s e).map Prod.fst := by
  rw [calculate_gain_eq_trace, calculate_gain_eq_trace]
  unfold sellLots buyLots
  rw [hs, hb, hp]

/-- Witness for the amended C6: swapping a purchase past a disposal across
the partition boundary preserves both streams and hence the gain. -/
theorem gain_determined_by_partitions_w :
    (calculate_gain_for_ticker scenarioA y2025start y2025end).map Prod.fst
      = (calculate_gain_for_ticker
          [⟨EventType.SELL, 20250615, 100, 12, 0⟩, ⟨EventType.BUY, 20250131, 100, 10, 0⟩]
          y2025start y2025end).map Prod.fst :=
  gain_determined_by_partitions scenarioA
    [⟨EventType.SELL, 20250615, 100, 12, 0⟩, ⟨EventType.BUY, 20250131, 100, 10, 0⟩]
    y2025start y2025end rfl rfl rfl

/-- Claim C7 counterexample: on a history with no in-window disposal the
first call completes and returns the events unchanged, so the second call
on the mutated sequence returns the identical result, not a different
one. -/
theorem second_call_identical_cex :
    calculate_gain_for_ticker buyOnlyHistory y2025start y2025end = some (0, buyOnlyHistory)
    ∧ (calculate_gain_for_ticker buyOnlyHistory y2025start y2025end).bind
        (fun p => calculate_gain_for_ticker p.2 y2025start y2025end)
      = some (0, buyOnlyHistory) :=
  ⟨by with_unfolding_all rfl, by with_unfolding_all rfl⟩

/-- Claim C7 (amended): the engine is destructive, and on histories whose
in-window disposals actually consume lot quantity a second call over the
mutated sequence returns a different (zero) gain — scenario A yields 200
then 0 — but histories without in-window disposals are returned unchanged
and repeat the same result. -/
theorem second_call_differs_after_consumption :
    calculate_gain_for_ticker scenarioA y2025start y2025end = some (200, scenarioA_sold)
    ∧ calculate_gain_for_ticker scenarioA_sold y2025start y2025end = some (0, scenarioA_sold)
    ∧ (200 : ℚ) ≠ 0 :=
  ⟨by with_unfolding_all rfl, by with_unfolding_all rfl, by norm_num⟩

/-- Claim C8: on every completing run starting from nonnegative quantities,
every final num_shares is nonnegative; and for the consumption ledger of the
run's own FIFO matching (fifoLedger produces exactly the trace tr the engine
realizes — conjuncts one and two — and credits every matched quantity to the
queue position of the lot it is drawn from), the total quantity consumed
from any single purchase lot of the relevant queue never exceeds that lot's
quantity entering the matching (which is at most its original quantity), the
ledger being position-aligned with the queue and its total consumption being
exactly the total matched quantity of the trace. -/
theorem quantities_nonneg_after_matching (events : List Event) (s e : ℤ) (g : ℚ)
    (ev' : List Event)
    (hnn : ∀ ev ∈ events, 0 ≤ ev.num_shares)
    (hrun : calculate_gain_for_ticker events s e = some (g, ev')) :
    (∀ ev ∈ ev', 0 ≤ ev.num_shares)
    ∧ ∃ tr : List Step, ∃ ledger : List (Lot × ℚ),
        fifoTrace (sellLots events s e) (carrySpec (priorSum events s) (buyLots events e))
            = some tr
        ∧ fifoLedger (sellLots events s e)
            (annotate (carrySpec (priorSum events s) (buyLots events e))) = some (tr, ledger)
        ∧ ledger.length = (carrySpec (priorSum events s) (buyLots events e)).length
        ∧ (ledger.map Prod.snd).sum = (tr.map Step.qty).sum
        ∧ ∀ j : ℕ,
            (ledger.getD j (default, 0)).2
              ≤ ((carrySpec (priorSum events s) (buyLots events e)).getD j default).qty := by
  have hcalc : calculate_gain_for_ticker events s e
      = matchLoopF
          ((sellIdxs events s e).length
            + ((buyIdxs events e).drop
                (carryLoop events (buyIdxs events e) (priorSum events s)).2).length + 1)
          (carryLoop events (buyIdxs events e) (priorSum events s)).1
          (sellIdxs events s e)
          ((buyIdxs events e).drop
            (carryLoop events (buyIdxs events e) (priorSum events s)).2)
          0 0 0 := rfl
  have hrunM := hcalc.symm.trans hrun
  have hnn1 := carryLoop_nonneg events (buyIdxs events e) (priorSum events s) hnn
  have hnn2 := matchLoopF_nonneg _ _ _ _ _ _ _ _ _ hnn1 hrunM
  refine ⟨hnn2, ?_⟩
  have hqnn : ∀ b ∈ carrySpec (priorSum events s) (buyLots events e), 0 ≤ b.qty := by
    apply carrySpec_nonneg
    intro b hbm
    obtain ⟨ev, hev, rfl⟩ := List.mem_map.mp hbm
    exact hnn ev (List.mem_of_mem_filter hev)
  have hb := calculate_gain_eq_trace events s e
  rw [hrun] at hb
  cases htr : fifoTrace (sellLots events s e)
      (carrySpec (priorSum events s) (buyLots events e)) with
  | none => rw [htr] at hb; simp at hb
  | some tr =>
    have herase := fifoLedger_erase (sellLots events s e)
      (annotate (carrySpec (priorSum events s) (buyLots events e)))
    rw [annotate_map_fst, htr] at herase
    cases hl : fifoLedger (sellLots events s e)
        (annotate (carrySpec (priorSum events s) (buyLots events e))) with
    | none => rw [hl] at herase; simp at herase
    | some q =>
      obtain ⟨tr₀, ledger⟩ := q
      rw [hl] at herase
      simp only [Option.map_some', Option.some_inj] at herase
      subst herase
      obtain ⟨hlen, hpoint, hnng, hsum⟩ := fifoLedger_conserve _ _ _ _ hl
      refine ⟨tr₀, ledger, rfl, rfl, ?_, ?_, ?_⟩
      · rw [hlen, annotate, List.length_map]
      · rw [hsum, annotate_snd_sum, zero_add]
      · intro j
        have hpj := hpoint j
        rw [annotate_getD] at hpj
        have hq0 : 0 ≤ (ledger.getD j (default, 0)).1.qty := by
          by_cases hj : j < ledger.length
          · refine hnng (annotate_qty_nonneg _ hqnn) _ ?_
            rw [List.getD_eq_getElem _ _ hj]
            exact List.getElem_mem hj
          · rw [getD_len_le _ _ _ (le_of_not_lt hj)]
            exact le_refl _
        simp only [] at hpj
        linarith [hpj, hq0]

/-- Witness for C8: in the completed scenario A run the zeroed disposal
still has nonnegative quantity. -/
theorem quantities_nonneg_after_matching_w :
    0 ≤ (evAt scenarioA_sold 1).num_shares :=
  (quantities_nonneg_after_matching scenarioA y2025start y2025end 200 scenarioA_sold
    (by decide) (by with_unfolding_all rfl)).1 (evAt scenarioA_sold 1) (by decide)

/-- Claim C9: a completing run mutates only num_shares, and only by
reduction: the returned list has the same length, agrees with the input on
evType, date, value and cost_of_transaction at every position, and — for
inputs with nonnegative quantities, as the data model prescribes — every
num_shares field is less than or equal to its input value. -/
theorem only_num_shares_mutated (events : List Event) (s e : ℤ) (g : ℚ)
    (ev' : List Event)
    (hrun : calculate_gain_for_ticker events s e = some (g, ev')) :
    ev'.length = events.length
    ∧ (∀ i : ℕ,
        (evAt ev' i).evType = (evAt events i).evType
        ∧ (evAt ev' i).date = (evAt events i).date
        ∧ (evAt ev' i).value = (evAt events i).value
        ∧ (evAt ev' i).cost_of_transaction = (evAt events i).cost_of_transaction)
    ∧ ((∀ ev ∈ events, 0 ≤ ev.num_shares) →
        ∀ i : ℕ, (evAt ev' i).num_shares ≤ (evAt events i).num_shares) := by
  have hcalc : calculate_gain_for_ticker events s e
      = matchLoopF
          ((sellIdxs events s e).length
            + ((buyIdxs events e).drop
                (carryLoop events (buyIdxs events e) (priorSum events s)).2).length + 1)
          (carryLoop events (buyIdxs events e) (priorSum events s)).1
          (sellIdxs events s e)
          ((buyIdxs events e).drop
            (carryLoop events (buyIdxs events e) (priorSum events s)).2)
          0 0 0 := rfl
  rw [hcalc] at hrun
  have hframe : sameFrame events ev' :=
    sameFrame_trans (carryLoop_frame events _ _)
      (matchLoopF_frame _ _ _ _ _ _ _ _ _ hrun)
  refine ⟨hframe.1.symm, hframe.2, ?_⟩
  intro hnn i
  have hdec1 : ∀ j : ℕ,
      (evAt (carryLoop events (buyIdxs events e) (priorSum events s)).1 j).num_shares
        ≤ (evAt events j).num_shares :=
    carryLoop_decreasing events _ _ (priorSum_nonneg events s hnn)
  have hnn1 := carryLoop_nonneg events (buyIdxs events e) (priorSum events s) hnn
  have hdec2 := matchLoopF_decreasing _ _ _ _ _ _ _ _ _ hnn1 hrun
  exact le_trans (hdec2 i) (hdec1 i)

/-- Witness for C9: scenario A keeps all non-quantity fields. -/
theorem only_num_shares_mutated_w :
    scenarioA_sold.length = scenarioA.length :=
  (only_num_shares_mutated scenarioA y2025start y2025end 200 scenarioA_sold
    (by with_unfolding_all rfl)).1

/-- Claim C10: a fully consumed event's num_shares is not necessarily zero:
in the equal-quantities branch the exhausted lot keeps its pre-match
quantity (100) while only the disposal is zeroed, and in the lot-larger
branch the fully matched disposal keeps its pre-match quantity (40). -/
theorem consumed_quantities_not_zeroed :
    calculate_gain_for_ticker scenarioA y2025start y2025end = some (200, scenarioA_sold)
    ∧ (scenarioA_sold.getD 0 default).num_shares = 100
    ∧ (scenarioA_sold.getD 1 default).num_shares = 0
    ∧ calculate_gain_for_ticker smallSaleHistory y2025start y2025end
        = some (80, smallSaleFinal)
    ∧ (smallSaleFinal.getD 1 default).num_shares = 40 :=
  ⟨by with_unfolding_all rfl, by decide, by decide, by with_unfolding_all rfl, by decide⟩

end T212
